import Mathlib

/-!
Verification of the disavow-list normalization pipeline
(`src/app/page.tsx` of blockrushusa/disavowtool).

The core of the program is four pure functions: a tokenizer, a
classifier (`looksLikeUrl`), a canonicalizer (`toDisavowDomain`) and an
orchestrator (`parseDomains` / `runProcessing`), plus the greenlist
builder (`normalizeGreenEntries`).  They are embedded below on
`List Char` / `String`, following the TypeScript source line by line.

The only platform dependency is the WHATWG `new URL(...)` constructor
used by `toDisavowDomain` to extract a hostname.  It is modelled by
`urlHostname` below, restricted to the ASCII fragment of the WHATWG URL
Standard (documented at the definition).
-/

namespace Disavow

/-! ### Character classes -/

/-- The delimiter class of the tokenizer regex `[\n,;\t]+`. -/
def isDelim (c : Char) : Bool :=
  c = '\n' || c = ',' || c = ';' || c = '\t'

/-- Whitespace removed by JavaScript `String.prototype.trim` (ASCII part,
plus NBSP and the BOM; other Unicode space separators are outside the
modelled fragment). -/
def isJsSpace (c : Char) : Bool :=
  c = ' ' || c = '\t' || c = '\n' || c = '\r' ||
  c = '\x0b' || c = '\x0c' || c.toNat = 0xa0 || c.toNat = 0xfeff

/-- The `.replace(/\r/g, "\n")` normalization, per character. -/
def normCR (c : Char) : Char :=
  if c = '\r' then '\n' else c

/-- JavaScript `value.trim()` on the character list. -/
def jsTrim (cs : List Char) : List Char :=
  ((cs.dropWhile isJsSpace).reverse.dropWhile isJsSpace).reverse

/-! ### Tokenizer -/

/-- Maximal runs of non-delimiter characters, i.e. the non-empty pieces
of `split(/[\n,;\t]+/)`.  (The JavaScript split can also produce empty
pieces at the ends; those are removed by the `.filter(Boolean)` that
always follows, so they are dropped here directly.) -/
def splitTokensAux : List Char → List Char → List (List Char)
  | [], cur => if cur = [] then [] else [cur.reverse]
  | c :: rest, cur =>
    if isDelim c then
      if cur = [] then splitTokensAux rest []
      else cur.reverse :: splitTokensAux rest []
    else splitTokensAux rest (c :: cur)

/-- The tokenizer:
`raw.replace(/\r/g,"\n").split(/[\n,;\t]+/).map(trim).filter(Boolean)`. -/
def tokenize (raw : String) : List String :=
  ((splitTokensAux (raw.data.map normCR) []).map
    (fun cs => String.mk (jsTrim cs))).filter (fun s => s ≠ "")

/-! ### Classifier -/

/-- Lowercasing of a character list, JavaScript `toLowerCase` (ASCII). -/
def lowerStr (cs : List Char) : List Char :=
  cs.map Char.toLower

/-- The classifier `looksLikeUrl` from the source. -/
def looksLikeUrl (value : String) : Bool :=
  let target := lowerStr (jsTrim value.data)
  if target = [] then false
  else if ("domain:").data.isPrefixOf target then true
  else if ("http://").data.isPrefixOf target then true
  else if ("https://").data.isPrefixOf target then true
  else if ("www.").data.isPrefixOf target then true
  else target.any (fun c => c = '.')

/-! ### The WHATWG URL hostname model -/

/-- Scheme characters after the first (`[A-Za-z0-9+.-]`). -/
def isSchemeChar (c : Char) : Bool :=
  c.isAlphanum || c = '+' || c = '-' || c = '.'

/-- Parse a URL scheme: an alphabetic character followed by scheme
characters, terminated by a colon; the scheme is lowercased as in the
basic URL parser.  Returns the scheme and the remainder after the
colon. -/
def parseScheme (cs : List Char) : Option (String × List Char) :=
  let pre := cs.takeWhile isSchemeChar
  match cs.drop pre.length with
  | ':' :: rest =>
    match pre with
    | [] => none
    | c :: _ => if c.isAlpha then some (String.mk (lowerStr pre), rest) else none
  | _ => none

/-- The special schemes of the WHATWG URL Standard. -/
def specialSchemes : List String :=
  ["http", "https", "ws", "wss", "ftp", "file"]

/-- Forbidden domain code points (WHATWG), plus everything outside
printable ASCII: the model does not perform percent-decoding or
punycode/IDNA mapping, so a percent sign or a non-ASCII character in a
special-scheme host is treated as a parse failure. -/
def forbiddenDomainChar (c : Char) : Bool :=
  c.toNat < 0x21 || c.toNat > 0x7e ||
  c = '#' || c = '%' || c = '/' || c = ':' || c = '<' || c = '>' ||
  c = '?' || c = '@' || c = '[' || c = '\\' || c = ']' || c = '^' || c = '|'

/-- Forbidden host code points for opaque (non-special) hosts. -/
def forbiddenHostChar (c : Char) : Bool :=
  c.toNat = 0 || c = '\t' || c = '\n' || c = '\r' || c = ' ' ||
  c = '#' || c = '/' || c = ':' || c = '<' || c = '>' ||
  c = '?' || c = '@' || c = '[' || c = '\\' || c = ']' || c = '^' || c = '|'

/-- Split a host string on dots, keeping empty labels. -/
def splitDotAux : List Char → List Char → List (List Char)
  | [], cur => [cur.reverse]
  | c :: rest, cur =>
    if c = '.' then cur.reverse :: splitDotAux rest []
    else splitDotAux rest (c :: cur)

/-- Dot-separated labels of a host. -/
def splitDot (cs : List Char) : List (List Char) :=
  splitDotAux cs []

/-- Lower-case or upper-case hexadecimal digit. -/
def isHexD (c : Char) : Bool :=
  c.isDigit || ('a' ≤ c && c ≤ 'f') || ('A' ≤ c && c ≤ 'F')

/-- Value of a radix-`r` digit (`r` is 8, 10 or 16). -/
def digitValR (r : Nat) (c : Char) : Option Nat :=
  if c.isDigit then
    let v := c.toNat - 48
    if v < r then some v else none
  else if r = 16 && 'a' ≤ c && c ≤ 'f' then some (c.toNat - 87)
  else if r = 16 && 'A' ≤ c && c ≤ 'F' then some (c.toNat - 55)
  else none

/-- Radix-`r` evaluation of a digit string; fails on a non-digit. -/
def parseRadixA (r : Nat) (acc : Nat) : List Char → Option Nat
  | [] => some acc
  | c :: rest =>
    match digitValR r c with
    | some v => parseRadixA r (acc * r + v) rest
    | none => none

/-- The IPv4-number parser of the WHATWG URL Standard: `0x` selects
hexadecimal (empty digits meaning zero), a leading `0` selects octal,
otherwise decimal; fails on the empty string or an invalid digit. -/
def parseIPv4Number (l : List Char) : Option Nat :=
  match l with
  | [] => none
  | ['0'] => some 0
  | '0' :: c :: rest =>
    if c = 'x' || c = 'X' then parseRadixA 16 0 rest
    else parseRadixA 8 0 (c :: rest)
  | _ => parseRadixA 10 0 l

/-- A label that makes a host "end in a number": non-empty and all ASCII
digits, or a `0x`-prefixed string of hexadecimal digits. -/
def isNumericLabel (l : List Char) : Bool :=
  match l with
  | [] => false
  | '0' :: c :: rest =>
    if c = 'x' || c = 'X' then rest.all isHexD
    else l.all Char.isDigit
  | _ => l.all Char.isDigit

/-- The "ends in a number" check of the WHATWG host parser. -/
def endsInNumber (host : List Char) : Bool :=
  let parts := splitDot host
  let parts2 := if parts.getLast? = some [] then parts.dropLast else parts
  match parts2.getLast? with
  | some l => isNumericLabel l
  | none => false

/-- The IPv4 parser: up to four dot-separated IPv4 numbers (one trailing
dot allowed), each non-final number below 256 and the final one below
`256 ^ (5 - count)`; yields the 32-bit address value. -/
def parseIPv4 (host : List Char) : Option Nat :=
  let parts0 := splitDot host
  let parts := if parts0.getLast? = some [] then parts0.dropLast else parts0
  if parts.length > 4 || parts = [] then none
  else
    match parts.mapM parseIPv4Number with
    | none => none
    | some ns =>
      match ns.getLast? with
      | none => none
      | some last =>
        let init := ns.dropLast
        if init.any (fun n => decide (n > 255)) then none
        else if last ≥ 256 ^ (5 - ns.length) then none
        else some ((init.foldl (fun a n => a * 256 + n) 0) * 256 ^ (5 - ns.length) + last)

/-- Decimal digit character via table lookup. -/
def digitChr (k : Nat) : Char :=
  ("0123456789").data.getD (k % 10) '0'

/-- Decimal representation of a byte (0 to 255). -/
def decByte (n : Nat) : List Char :=
  if n < 10 then [digitChr n]
  else if n < 100 then [digitChr (n / 10), digitChr n]
  else [digitChr (n / 100), digitChr (n / 10), digitChr n]

/-- Dotted-decimal serialization of a 32-bit IPv4 address value. -/
def serializeIPv4 (v : Nat) : List Char :=
  decByte (v / 16777216 % 256) ++ '.' ::
  (decByte (v / 65536 % 256) ++ '.' ::
  (decByte (v / 256 % 256) ++ '.' :: decByte (v % 256)))

/-- Host parsing for special schemes (a domain): forbidden-code-point
check, ASCII lowercasing, and the ends-in-a-number / IPv4 rewrite. -/
def parseDomain (h : List Char) : Option (List Char) :=
  if h.any forbiddenDomainChar then none
  else
    let lh := lowerStr h
    if endsInNumber lh then (parseIPv4 lh).map serializeIPv4 else some lh

/-- Opaque-host parsing for non-special schemes: only the forbidden host
code points are rejected; no case folding happens here. -/
def parseOpaque (h : List Char) : Option (List Char) :=
  if h.any forbiddenHostChar then none else some h

/-- Strip userinfo: the part of an authority after its last `@`.  The
boolean records whether an `@` was present. -/
def afterLastAt : List Char → Bool × List Char
  | [] => (false, [])
  | c :: rest =>
    let p := afterLastAt rest
    if p.1 then p
    else if c = '@' then (true, rest)
    else (false, c :: rest)

/-- Split host and port at the first colon. -/
def hostPortSplit (hp : List Char) : List Char × List Char :=
  (hp.takeWhile (fun c => c ≠ ':'), (hp.dropWhile (fun c => c ≠ ':')).drop 1)

/-- Port validity: all ASCII digits (possibly none) with value at most
65535. -/
def portOk (p : List Char) : Bool :=
  p.all Char.isDigit && p.foldl (fun a c => a * 10 + (c.toNat - 48)) 0 ≤ 65535

/-- Authority terminators for special schemes (backslash included). -/
def isAuthEndSpecial (c : Char) : Bool :=
  c = '/' || c = '\\' || c = '?' || c = '#'

/-- Authority terminators for non-special schemes. -/
def isAuthEnd (c : Char) : Bool :=
  c = '/' || c = '?' || c = '#'

/-- Hostname of an authority for a special non-file scheme. -/
def specialAuthorityHost (auth : List Char) : Option (List Char) :=
  let hp := afterLastAt auth
  let hostport := hostPortSplit hp.2
  if ¬ portOk hostport.2 then none
  else if hostport.1 = [] then none
  else
    match hostport.1 with
    | '[' :: _ => none
    | h => parseDomain h

/-- Hostname of an authority for a non-special scheme (opaque host). -/
def opaqueAuthorityHost (auth : List Char) : Option (List Char) :=
  let hp := afterLastAt auth
  if hp.1 && hp.2 = [] then none
  else
    let hostport := hostPortSplit hp.2
    if ¬ portOk hostport.2 then none
    else
      match hostport.1 with
      | '[' :: _ => none
      | h => parseOpaque h

/-- Modelled from the WHATWG URL Standard: the `hostname` component that
`new URL(input)` yields, or `none` when the constructor throws.  The
model is restricted to the ASCII fragment exercised by this program:
percent-decoding, punycode/IDNA mapping of non-ASCII hosts, bracketed
IPv6 hosts, and Windows-drive handling of `file:` URLs are modelled as
parse failures, and the input is assumed free of ASCII tab and newline
(the tokenizer guarantees this for every input this program passes in).
Everything else follows the standard: scheme parsing, the
slash-skipping before a special authority, userinfo and port stripping,
forbidden code points, ASCII lowercasing of domains, and the
ends-in-a-number / IPv4 normalization. -/
def urlHostname (cs : List Char) : Option (List Char) :=
  match parseScheme cs with
  | none => none
  | some (scheme, rest) =>
    if scheme ∈ specialSchemes then
      if scheme = "file" then
        match rest with
        | s1 :: s2 :: _ =>
          if (s1 = '/' || s1 = '\\') && (s2 = '/' || s2 = '\\') then
            match (rest.drop 2).takeWhile (fun c => ¬ isAuthEndSpecial c) with
            | [] => some []
            | '[' :: _ => none
            | h => if h = ("localhost").data then some [] else parseDomain h
          else some []
        | _ => some []
      else
        let rest2 := rest.dropWhile (fun c => c = '/' || c = '\\')
        let auth := rest2.takeWhile (fun c => ¬ isAuthEndSpecial c)
        specialAuthorityHost auth
    else
      match rest with
      | '/' :: '/' :: r =>
        let auth := r.takeWhile (fun c => ¬ isAuthEnd c)
        opaqueAuthorityHost auth
      | _ => some []

/-! ### Canonicalizer -/

/-- The case-insensitive strip of one leading `domain:` tag,
`replace(/^domain:/i, "")`. -/
def stripDomainTag (cs : List Char) : List Char :=
  if lowerStr (cs.take 7) = ("domain:").data then cs.drop 7 else cs

/-- The case-insensitive strip of one leading `www.`,
`replace(/^www\./i, "")`. -/
def stripWww (cs : List Char) : List Char :=
  if lowerStr (cs.take 4) = ("www.").data then cs.drop 4 else cs

/-- Does the string contain the substring `://`
(JavaScript `includes("://")`)? -/
def hasSchemeSep : List Char → Bool
  | [] => false
  | c :: rest =>
    match c, rest with
    | ':', '/' :: '/' :: _ => true
    | _, _ => hasSchemeSep rest

/-- Protocol inference: prepend `https://` unless `://` already
occurs. -/
def ensureProtocol (cs : List Char) : List Char :=
  if hasSchemeSep cs then cs else ("https://").data ++ cs

/-- The fallback hostname extraction `split(/[/?#]/)[0]` used when URL
parsing throws. -/
def fallbackHost (cs : List Char) : List Char :=
  cs.takeWhile (fun c => c ≠ '/' && c ≠ '?' && c ≠ '#')

/-- The canonicalizer `toDisavowDomain` from the source: reject empty
input, trim, strip one `domain:` tag, infer a protocol, extract the
hostname by URL parsing with the split fallback, strip one leading
`www.`, lowercase, and reject an empty result. -/
def toDisavowDomain (value : String) : Option String :=
  if value = "" then none
  else
    let trimmed := jsTrim value.data
    if trimmed = [] then none
    else
      let afterTag := stripDomainTag trimmed
      if afterTag = [] then none
      else
        let hostname :=
          (urlHostname (ensureProtocol afterTag)).getD (fallbackHost afterTag)
        let normalized := lowerStr (stripWww hostname)
        if normalized = [] then none
        else some (String.mk (("domain:").data ++ normalized))

/-! ### Orchestrator -/

/-- Result of `parseDomains`. -/
structure ParseResult where
  cleaned : List String
  total : Nat

/-- First-occurrence-order deduplication, the model of
`Array.from(new Set(xs))` (a JavaScript `Set` iterates in insertion
order). -/
def dedupAux (seen : List String) : List String → List String
  | [] => []
  | x :: xs =>
    if x ∈ seen then dedupAux seen xs
    else x :: dedupAux (x :: seen) xs

/-- Deduplication preserving first-occurrence order. -/
def dedupList (l : List String) : List String :=
  dedupAux [] l

/-- The orchestrator `parseDomains` from the source. -/
def parseDomains (raw : String) (dedupe skipNonUrl : Bool) : ParseResult :=
  let tokens := tokenize raw
  let total := tokens.length
  let processed := tokens.filterMap (fun token =>
    if skipNonUrl && ¬ looksLikeUrl token then none
    else toDisavowDomain token)
  let cleaned := if dedupe then dedupList processed else processed
  ⟨cleaned, total⟩

/-- The observable result of one `runProcessing` invocation: the stats
and the rendered domain list.  The exclusion set is modelled as a list
consulted by membership, matching the `Set.has` use in the source. -/
structure ProcessResult where
  total : Nat
  cleaned : List String
  filtered : List String
  greenRemoved : Nat

/-- The `runProcessing` callback from the source, restricted to its
pure core: the whitespace-only fast path, the `parseDomains` call, the
exclusion filter, and the three counters. -/
def runProcessing (source : String) (dedupeFlag skipFlag : Bool)
    (filterSet : List String) : ProcessResult :=
  if jsTrim source.data = [] then ⟨0, [], [], 0⟩
  else
    let pr := parseDomains source dedupeFlag skipFlag
    let filtered := pr.cleaned.filter (fun e => e ∉ filterSet)
    ⟨pr.total, pr.cleaned, filtered, pr.cleaned.length - filtered.length⟩

/-- The greenlist builder `normalizeGreenEntries` from the source:
tokenize, canonicalize every token without the classifier, drop
rejects, deduplicate. -/
def normalizeGreenEntries (text : String) : List String :=
  dedupList ((tokenize text).filterMap toDisavowDomain)

/-- An ASCII uppercase letter. -/
def isUpperAscii (c : Char) : Bool :=
  65 ≤ c.toNat && c.toNat ≤ 90

/-- Characters that can never occur in a hostname produced by the
canonicalizer: slash, question mark, hash. -/
def goodHostChar (c : Char) : Prop :=
  c ≠ '/' ∧ c ≠ '?' ∧ c ≠ '#'

instance (c : Char) : Decidable (goodHostChar c) := by
  unfold goodHostChar
  infer_instance

/-! ### Character-level lemmas -/

theorem char_toNat_ofNat_valid {n : Nat} (h : n.isValidChar) :
    (Char.ofNat n).toNat = n := by
  rw [Char.ofNat, dif_pos h]
  rfl

theorem toLower_cases (c : Char) :
    (65 ≤ c.toNat ∧ c.toNat ≤ 90 ∧ (Char.toLower c).toNat = c.toNat + 32) ∨
    (¬(65 ≤ c.toNat ∧ c.toNat ≤ 90) ∧ Char.toLower c = c) := by
  unfold Char.toLower
  by_cases h : c.toNat ≥ 65 ∧ c.toNat ≤ 90
  · left
    refine ⟨h.1, h.2, ?_⟩
    rw [if_pos h]
    exact char_toNat_ofNat_valid (Or.inl (by omega))
  · right
    rw [if_neg h]
    exact ⟨h, rfl⟩

theorem toLower_eq_low {c d : Char} (hd : d.toNat < 97)
    (h : Char.toLower c = d) : c = d := by
  rcases toLower_cases c with ⟨h1, _, h3⟩ | ⟨_, h2⟩
  · rw [h] at h3
    omega
  · rw [h2] at h
    exact h

theorem toLower_ne {c d : Char} (hd : d.toNat < 97) (h : c ≠ d) :
    Char.toLower c ≠ d :=
  fun he => h (toLower_eq_low hd he)

theorem toLower_not_upperAscii (c : Char) :
    isUpperAscii (Char.toLower c) = false := by
  rcases toLower_cases c with ⟨_, _, h3⟩ | ⟨h1, h2⟩
  · simp only [isUpperAscii, Bool.and_eq_false_iff, decide_eq_false_iff_not]
    omega
  · rw [h2]
    simp only [isUpperAscii, Bool.and_eq_false_iff, decide_eq_false_iff_not]
    omega

theorem goodHostChar_toLower {c : Char} (h : goodHostChar c) :
    goodHostChar (Char.toLower c) :=
  ⟨toLower_ne (by decide) h.1, toLower_ne (by decide) h.2.1,
   toLower_ne (by decide) h.2.2⟩

theorem mem_lowerStr {c : Char} {cs : List Char} (h : c ∈ lowerStr cs) :
    ∃ c₀ ∈ cs, c = Char.toLower c₀ := by
  rcases List.mem_map.mp h with ⟨c₀, hc₀, he⟩
  exact ⟨c₀, hc₀, he.symm⟩

/-! ### Characters of parsed hosts -/

theorem not_forbiddenDomain_good {c : Char}
    (h : forbiddenDomainChar c = false) : goodHostChar c := by
  refine ⟨fun he => ?_, fun he => ?_, fun he => ?_⟩ <;> subst he <;>
    exact absurd h (by decide)

theorem not_forbiddenHost_good {c : Char}
    (h : forbiddenHostChar c = false) : goodHostChar c := by
  refine ⟨fun he => ?_, fun he => ?_, fun he => ?_⟩ <;> subst he <;>
    exact absurd h (by decide)

/-- The ten decimal digit characters. -/
def digitChars : List Char :=
  ['0', '1', '2', '3', '4', '5', '6', '7', '8', '9']

theorem digitChr_mem (k : Nat) : digitChr k ∈ digitChars := by
  unfold digitChr
  have h : k % 10 = 0 ∨ k % 10 = 1 ∨ k % 10 = 2 ∨ k % 10 = 3 ∨ k % 10 = 4 ∨
      k % 10 = 5 ∨ k % 10 = 6 ∨ k % 10 = 7 ∨ k % 10 = 8 ∨ k % 10 = 9 := by
    omega
  rcases h with h | h | h | h | h | h | h | h | h | h <;> rw [h] <;> decide

theorem mem_decByte {n : Nat} {c : Char} (h : c ∈ decByte n) :
    c ∈ digitChars := by
  unfold decByte at h
  split at h
  · rcases List.mem_singleton.mp h with rfl
    exact digitChr_mem n
  · split at h
    · rcases List.mem_cons.mp h with rfl | h2
      · exact digitChr_mem _
      · rcases List.mem_singleton.mp h2 with rfl
        exact digitChr_mem _
    · rcases List.mem_cons.mp h with rfl | h2
      · exact digitChr_mem _
      · rcases List.mem_cons.mp h2 with rfl | h3
        · exact digitChr_mem _
        · rcases List.mem_singleton.mp h3 with rfl
          exact digitChr_mem _

theorem mem_serializeIPv4 {v : Nat} {c : Char} (h : c ∈ serializeIPv4 v) :
    c ∈ digitChars ∨ c = '.' := by
  unfold serializeIPv4 at h
  simp only [List.mem_append, List.mem_cons] at h
  rcases h with h | h | h | h | h | h | h
  · exact Or.inl (mem_decByte h)
  · exact Or.inr h
  · exact Or.inl (mem_decByte h)
  · exact Or.inr h
  · exact Or.inl (mem_decByte h)
  · exact Or.inr h
  · exact Or.inl (mem_decByte h)

theorem serializeIPv4_good {v : Nat} {c : Char} (h : c ∈ serializeIPv4 v) :
    goodHostChar c := by
  rcases mem_serializeIPv4 h with h | rfl
  · simp only [digitChars, List.mem_cons, List.not_mem_nil, or_false] at h
    rcases h with rfl | rfl | rfl | rfl | rfl | rfl | rfl | rfl | rfl | rfl <;> decide
  · decide

theorem parseDomain_chars {h0 h' : List Char} (he : parseDomain h0 = some h') :
    ∀ c ∈ h', goodHostChar c := by
  unfold parseDomain at he
  by_cases hany : h0.any forbiddenDomainChar = true
  · rw [if_pos hany] at he
    cases he
  · rw [if_neg hany] at he
    by_cases hnum : endsInNumber (lowerStr h0) = true
    · rw [if_pos hnum] at he
      rcases Option.map_eq_some'.mp he with ⟨v, _, rfl⟩
      exact fun c hc => serializeIPv4_good hc
    · rw [if_neg hnum] at he
      injection he with he
      subst he
      intro c hc
      rcases mem_lowerStr hc with ⟨c₀, hc₀, rfl⟩
      apply goodHostChar_toLower
      cases hfx : forbiddenDomainChar c₀
      · exact not_forbiddenDomain_good hfx
      · exact absurd (List.any_eq_true.mpr ⟨c₀, hc₀, hfx⟩) hany

theorem parseOpaque_chars {h0 h' : List Char} (he : parseOpaque h0 = some h') :
    ∀ c ∈ h', goodHostChar c := by
  unfold parseOpaque at he
  by_cases hany : h0.any forbiddenHostChar = true
  · rw [if_pos hany] at he
    cases he
  · rw [if_neg hany] at he
    injection he with he
    subst he
    intro c hc
    cases hfx : forbiddenHostChar c
    · exact not_forbiddenHost_good hfx
    · exact absurd (List.any_eq_true.mpr ⟨c, hc, hfx⟩) hany

theorem specialAuthorityHost_chars {auth h' : List Char}
    (he : specialAuthorityHost auth = some h') : ∀ c ∈ h', goodHostChar c := by
  simp only [specialAuthorityHost] at he
  split at he
  · cases he
  · split at he
    · cases he
    · split at he
      · cases he
      · exact parseDomain_chars he

theorem opaqueAuthorityHost_chars {auth h' : List Char}
    (he : opaqueAuthorityHost auth = some h') : ∀ c ∈ h', goodHostChar c := by
  simp only [opaqueAuthorityHost] at he
  split at he
  · cases he
  · split at he
    · cases he
    · split at he
      · cases he
      · exact parseOpaque_chars he

theorem urlHostname_chars {cs h' : List Char} (he : urlHostname cs = some h') :
    ∀ c ∈ h', goodHostChar c := by
  unfold urlHostname at he
  split at he
  · cases he
  · split at he
    · split at he
      · split at he
        · split at he
          · split at he
            · injection he with he
              subst he
              intro c hc
              cases hc
            · cases he
            · split at he
              · injection he with he
                subst he
                intro c hc
                cases hc
              · exact parseDomain_chars he
          · injection he with he
            subst he
            intro c hc
            cases hc
        · injection he with he
          subst he
          intro c hc
          cases hc
      · exact specialAuthorityHost_chars he
    · split at he
      · exact opaqueAuthorityHost_chars he
      · injection he with he
        subst he
        intro c hc
        cases hc

theorem fallbackHost_chars {cs : List Char} :
    ∀ c ∈ fallbackHost cs, goodHostChar c := by
  intro c hc
  have h := List.mem_takeWhile_imp hc
  simp only [Bool.and_eq_true, decide_eq_true_eq] at h
  exact ⟨h.1.1, h.1.2, h.2⟩

theorem stripWww_subset {cs : List Char} : stripWww cs ⊆ cs := by
  unfold stripWww
  split
  · exact List.drop_subset _ _
  · exact fun _ h => h

/-- Shape of every canonicalizer output: a `domain:` tag followed by a
non-empty hostname that contains no slash, question mark or hash and no
ASCII uppercase letter. -/
theorem toDisavowDomain_shape {v d : String} (he : toDisavowDomain v = some d) :
    ∃ h : List Char, d = String.mk (("domain:").data ++ h) ∧ h ≠ [] ∧
      ∀ c ∈ h, goodHostChar c ∧ isUpperAscii c = false := by
  simp only [toDisavowDomain] at he
  by_cases h1 : v = ""
  · rw [if_pos h1] at he
    cases he
  · rw [if_neg h1] at he
    by_cases h2 : jsTrim v.data = []
    · rw [if_pos h2] at he
      cases he
    · rw [if_neg h2] at he
      by_cases h3 : stripDomainTag (jsTrim v.data) = []
      · rw [if_pos h3] at he
        cases he
      · rw [if_neg h3] at he
        set X : List Char :=
          (urlHostname (ensureProtocol (stripDomainTag (jsTrim v.data)))).getD
            (fallbackHost (stripDomainTag (jsTrim v.data))) with hX
        by_cases h4 : lowerStr (stripWww X) = []
        · rw [if_pos h4] at he
          cases he
        · rw [if_neg h4] at he
          injection he with he
          refine ⟨lowerStr (stripWww X), he.symm, h4, ?_⟩
          intro c hc
          rcases mem_lowerStr hc with ⟨c₀, hc₀, rfl⟩
          have hc₀X : c₀ ∈ X := stripWww_subset hc₀
          refine ⟨goodHostChar_toLower ?_, toLower_not_upperAscii c₀⟩
          rcases hu : urlHostname (ensureProtocol (stripDomainTag (jsTrim v.data))) with _ | h
          · rw [hX, hu, Option.getD_none] at hc₀X
            exact fallbackHost_chars c₀ hc₀X
          · rw [hX, hu, Option.getD_some] at hc₀X
            exact urlHostname_chars hu c₀ hc₀X

/-! ### Clean hostnames and the URL round trip -/

/-- An ASCII lowercase letter, by code point. -/
def isLowerAscii (c : Char) : Bool :=
  97 ≤ c.toNat && c.toNat ≤ 122

/-- An ASCII digit, by code point. -/
def isDigitAscii (c : Char) : Bool :=
  48 ≤ c.toNat && c.toNat ≤ 57

/-- A conservative class of hostname characters on which the URL parser
acts trivially: lowercase ASCII letters, digits, hyphen, dot,
underscore. -/
def cleanHostChar (c : Char) : Bool :=
  isLowerAscii c || isDigitAscii c || c = '-' || c = '.' || c = '_'

theorem clean_toNat {c : Char} (h : cleanHostChar c = true) :
    97 ≤ c.toNat ∧ c.toNat ≤ 122 ∨ 48 ≤ c.toNat ∧ c.toNat ≤ 57 ∨
    c.toNat = 45 ∨ c.toNat = 46 ∨ c.toNat = 95 := by
  unfold cleanHostChar isLowerAscii isDigitAscii at h
  simp only [Bool.or_eq_true, Bool.and_eq_true, decide_eq_true_eq] at h
  repeat' rcases h with h | h
  all_goals first
    | decide
    | omega

theorem clean_ne {c : Char} (h : cleanHostChar c = true) (d : Char)
    (hd : cleanHostChar d = false) : c ≠ d := by
  intro he
  subst he
  rw [h] at hd
  cases hd

theorem clean_authEnd {c : Char} (h : cleanHostChar c = true) :
    isAuthEndSpecial c = false := by
  cases hb : isAuthEndSpecial c
  · rfl
  · exfalso
    unfold isAuthEndSpecial at hb
    simp only [Bool.or_eq_true, decide_eq_true_eq] at hb
    rcases hb with ((hb | hb) | hb) | hb <;> subst hb <;>
      exact absurd h (by decide)

theorem clean_forbidden {c : Char} (h : cleanHostChar c = true) :
    forbiddenDomainChar c = false := by
  cases hb : forbiddenDomainChar c
  · rfl
  · exfalso
    have hn := clean_toNat h
    unfold forbiddenDomainChar at hb
    simp only [Bool.or_eq_true, decide_eq_true_eq] at hb
    repeat' rcases hb with hb | hb
    all_goals first
      | omega
      | exact absurd h (by decide)

theorem clean_not_space {c : Char} (h : cleanHostChar c = true) :
    isJsSpace c = false := by
  cases hb : isJsSpace c
  · rfl
  · exfalso
    have hn := clean_toNat h
    unfold isJsSpace at hb
    simp only [Bool.or_eq_true, decide_eq_true_eq] at hb
    repeat' rcases hb with hb | hb
    all_goals first
      | omega
      | exact absurd h (by decide)

theorem clean_toLower {c : Char} (h : cleanHostChar c = true) :
    Char.toLower c = c := by
  rcases toLower_cases c with ⟨h1, h2, _⟩ | ⟨_, h2⟩
  · exfalso
    have hn := clean_toNat h
    omega
  · exact h2

/-- A map whose function fixes every member fixes the list. -/
theorem map_fix {f : Char → Char} {l : List Char}
    (hf : ∀ c ∈ l, f c = c) : l.map f = l := by
  induction l with
  | nil => rfl
  | cons c t ih =>
    rw [List.map_cons, hf c (List.mem_cons_self c t),
      ih (fun x hx => hf x (List.mem_cons_of_mem c hx))]

theorem lowerStr_fix {l : List Char} (hf : ∀ c ∈ l, Char.toLower c = c) :
    lowerStr l = l :=
  map_fix hf

theorem dropWhile_all_false {p : Char → Bool} {l : List Char}
    (h : ∀ c ∈ l, p c = false) : l.dropWhile p = l := by
  induction l with
  | nil => rfl
  | cons c t _ =>
    rw [List.dropWhile_cons, h c (List.mem_cons_self c t)]
    simp

theorem jsTrim_fix {l : List Char} (h : ∀ c ∈ l, isJsSpace c = false) :
    jsTrim l = l := by
  unfold jsTrim
  rw [dropWhile_all_false h,
    dropWhile_all_false (fun c hc => h c (List.mem_reverse.mp hc)),
    List.reverse_reverse]

theorem clean_any_forbidden {l : List Char}
    (hclean : ∀ c ∈ l, cleanHostChar c = true) :
    l.any forbiddenDomainChar = false := by
  cases hb : l.any forbiddenDomainChar
  · rfl
  · rcases List.any_eq_true.mp hb with ⟨x, hx, hfx⟩
    rw [clean_forbidden (hclean x hx)] at hfx
    cases hfx

theorem parseDomain_clean {h : List Char}
    (hclean : ∀ c ∈ h, cleanHostChar c = true)
    (hnum : endsInNumber h = false) : parseDomain h = some h := by
  unfold parseDomain
  rw [clean_any_forbidden hclean, if_neg (by decide)]
  have hfix : lowerStr h = h :=
    lowerStr_fix (fun c hc => clean_toLower (hclean c hc))
  show (if endsInNumber (lowerStr h) = true then
      Option.map serializeIPv4 (parseIPv4 (lowerStr h)) else some (lowerStr h)) = some h
  rw [hfix, hnum, if_neg (by decide)]

theorem afterLastAt_no_at {l : List Char} (h : ∀ c ∈ l, c ≠ '@') :
    afterLastAt l = (false, l) := by
  induction l with
  | nil => rfl
  | cons c t ih =>
    unfold afterLastAt
    rw [ih (fun x hx => h x (List.mem_cons_of_mem c hx))]
    simp [h c (List.mem_cons_self c t)]

theorem hostPortSplit_clean {h : List Char}
    (hclean : ∀ c ∈ h, cleanHostChar c = true) :
    hostPortSplit h = (h, []) := by
  unfold hostPortSplit
  have ht : h.takeWhile (fun c => c ≠ ':') = h :=
    List.takeWhile_eq_self_iff.mpr (fun x hx => by
      simp [clean_ne (hclean x hx) ':' (by decide)])
  have hd : h.dropWhile (fun c => c ≠ ':') = [] := by
    rw [List.dropWhile_eq_nil_iff]
    intro x hx
    simp [clean_ne (hclean x hx) ':' (by decide)]
  rw [ht, hd]
  rfl

theorem specialAuthorityHost_clean {h : List Char} (hne : h ≠ [])
    (hclean : ∀ c ∈ h, cleanHostChar c = true)
    (hnum : endsInNumber h = false) :
    specialAuthorityHost h = some h := by
  unfold specialAuthorityHost
  rw [afterLastAt_no_at (fun c hc => clean_ne (hclean c hc) '@' (by decide))]
  dsimp only
  rw [hostPortSplit_clean hclean]
  dsimp only
  rw [if_neg (by decide), if_neg hne]
  cases h with
  | nil => exact absurd rfl hne
  | cons c t =>
    split
    · rename_i heq
      injection heq with h1 _
      exact absurd h1 (clean_ne (hclean c (List.mem_cons_self c t)) '[' (by decide))
    · exact parseDomain_clean hclean hnum

theorem parseScheme_https (h : List Char) :
    parseScheme (("https://").data ++ h) = some ("https", '/' :: '/' :: h) := by
  have e1 : List.takeWhile isSchemeChar (("https://").data ++ h) = ("https").data := by
    show List.takeWhile isSchemeChar
        ('h' :: 't' :: 't' :: 'p' :: 's' :: ':' :: '/' :: '/' :: h) = _
    rw [List.takeWhile_cons_of_pos (by decide), List.takeWhile_cons_of_pos (by decide),
      List.takeWhile_cons_of_pos (by decide), List.takeWhile_cons_of_pos (by decide),
      List.takeWhile_cons_of_pos (by decide), List.takeWhile_cons_of_neg (by decide)]
  unfold parseScheme
  rw [e1]
  rfl

theorem urlHostname_clean {h : List Char} (hne : h ≠ [])
    (hclean : ∀ c ∈ h, cleanHostChar c = true)
    (hnum : endsInNumber h = false) :
    urlHostname (("https://").data ++ h) = some h := by
  unfold urlHostname
  rw [parseScheme_https]
  dsimp only
  rw [if_pos (by decide : ("https" : String) ∈ specialSchemes)]
  rw [if_neg (by decide : ¬("https" : String) = "file")]
  have e2 : List.dropWhile (fun c => c = '/' || c = '\\') ('/' :: '/' :: h) = h := by
    rw [List.dropWhile_cons, if_pos (by decide), List.dropWhile_cons, if_pos (by decide)]
    exact dropWhile_all_false (fun c hc => by
      have h1 := clean_ne (hclean c hc) '/' (by decide)
      have h2 := clean_ne (hclean c hc) '\\' (by decide)
      simp [h1, h2])
  rw [e2]
  have e3 : List.takeWhile (fun c => ¬ isAuthEndSpecial c) h = h :=
    List.takeWhile_eq_self_iff.mpr (fun x hx => by
      simp [clean_authEnd (hclean x hx)])
  rw [e3]
  exact specialAuthorityHost_clean hne hclean hnum

theorem hasSchemeSep_false {l : List Char} (h : ∀ c ∈ l, c ≠ '/') :
    hasSchemeSep l = false := by
  induction l with
  | nil => rfl
  | cons c t ih =>
    unfold hasSchemeSep
    split
    · rename_i heq
      exact absurd rfl (h '/' (by simp))
    · exact ih (fun x hx => h x (List.mem_cons_of_mem c hx))

theorem take_clean_ne_tag {h : List Char}
    (hclean : ∀ c ∈ h, cleanHostChar c = true) :
    lowerStr (h.take 7) ≠ ("domain:").data := by
  intro he
  have hm : ':' ∈ lowerStr (h.take 7) := by
    rw [he]
    decide
  rcases mem_lowerStr hm with ⟨c₀, hc₀, heq⟩
  have hc : c₀ = ':' := toLower_eq_low (by decide) heq.symm
  subst hc
  exact absurd (hclean ':' (List.take_subset _ _ hc₀)) (by decide)

theorem take_nodot_ne_www {h : List Char} (hnd : ∀ c ∈ h, c ≠ '.') :
    lowerStr (h.take 4) ≠ ("www.").data := by
  intro he
  have hm : '.' ∈ lowerStr (h.take 4) := by
    rw [he]
    decide
  rcases mem_lowerStr hm with ⟨c₀, hc₀, heq⟩
  have hc : c₀ = '.' := toLower_eq_low (by decide) heq.symm
  subst hc
  exact hnd '.' (List.take_subset _ _ hc₀) rfl

theorem take_clean_eq_www {h : List Char}
    (hclean : ∀ c ∈ h, cleanHostChar c = true)
    (he : lowerStr (h.take 4) = ("www.").data) : h.take 4 = ("www.").data := by
  rw [← he]
  exact (lowerStr_fix (fun c hc =>
    clean_toLower (hclean c (List.take_subset _ _ hc)))).symm

/-- On a clean hostname the URL branch of the canonicalizer is the
identity: protocol inference prepends the scheme, the URL model gives
the host back, and the trailing normalization fixes it. -/
theorem hostpipe_clean {h : List Char} (hne : h ≠ [])
    (hclean : ∀ c ∈ h, cleanHostChar c = true)
    (hwww : lowerStr (h.take 4) ≠ ("www.").data)
    (hnum : endsInNumber h = false) :
    lowerStr (stripWww ((urlHostname (ensureProtocol h)).getD (fallbackHost h))) = h := by
  have hep : ensureProtocol h = ("https://").data ++ h := by
    unfold ensureProtocol
    rw [hasSchemeSep_false (fun c hc => clean_ne (hclean c hc) '/' (by decide))]
    rw [if_neg (by decide)]
  rw [hep, urlHostname_clean hne hclean hnum, Option.getD_some]
  have hsw : stripWww h = h := by
    unfold stripWww
    rw [if_neg hwww]
  rw [hsw]
  exact lowerStr_fix (fun c hc => clean_toLower (hclean c hc))

/-- The canonicalizer on a clean bare hostname token: the token is
accepted and becomes its own hostname. -/
theorem toDisavow_bare {h : List Char} (hne : h ≠ [])
    (hclean : ∀ c ∈ h, cleanHostChar c = true)
    (hwww : lowerStr (h.take 4) ≠ ("www.").data)
    (hnum : endsInNumber h = false) :
    toDisavowDomain (String.mk h) = some (String.mk (("domain:").data ++ h)) := by
  unfold toDisavowDomain
  rw [if_neg (show ¬ String.mk h = "" from fun he => hne (congrArg String.data he))]
  dsimp only
  rw [jsTrim_fix (fun c hc => clean_not_space (hclean c hc))]
  rw [if_neg hne]
  rw [show stripDomainTag h = h from by
    unfold stripDomainTag
    rw [if_neg (take_clean_ne_tag hclean)]]
  rw [if_neg hne]
  rw [hostpipe_clean hne hclean hwww hnum]
  rw [if_neg hne]

/-- The canonicalizer fixes every `domain:`-tagged clean hostname. -/
theorem toDisavow_tagged {h : List Char} (hne : h ≠ [])
    (hclean : ∀ c ∈ h, cleanHostChar c = true)
    (hwww : lowerStr (h.take 4) ≠ ("www.").data)
    (hnum : endsInNumber h = false) :
    toDisavowDomain (String.mk (("domain:").data ++ h)) =
      some (String.mk (("domain:").data ++ h)) := by
  unfold toDisavowDomain
  rw [if_neg (show ¬ String.mk (("domain:").data ++ h) = "" from fun he =>
    List.cons_ne_nil 'd' (('o' :: 'm' :: 'a' :: 'i' :: 'n' :: ':' :: []) ++ h)
      (congrArg String.data he))]
  dsimp only
  rw [jsTrim_fix (show ∀ c ∈ ("domain:").data ++ h, isJsSpace c = false from by
    intro c hc
    rcases List.mem_append.mp hc with hc | hc
    · exact (show ∀ c ∈ ("domain:").data, isJsSpace c = false from by decide) c hc
    · exact clean_not_space (hclean c hc))]
  rw [if_neg (show ¬ ("domain:").data ++ h = [] from
    List.cons_ne_nil 'd' (('o' :: 'm' :: 'a' :: 'i' :: 'n' :: ':' :: []) ++ h))]
  rw [show stripDomainTag (("domain:").data ++ h) = h from by
    unfold stripDomainTag
    rw [List.take_left' (show (("domain:").data).length = 7 from rfl)]
    rw [show lowerStr (("domain:").data) = ("domain:").data by decide]
    rw [if_pos rfl, List.drop_left' (show (("domain:").data).length = 7 from rfl)]]
  rw [if_neg hne]
  rw [hostpipe_clean hne hclean hwww hnum]
  rw [if_neg hne]

/-! ### Tokenizer and orchestrator lemmas -/

theorem dropWhile_idem {p : Char → Bool} {l : List Char} :
    List.dropWhile p (List.dropWhile p l) = List.dropWhile p l := by
  induction l with
  | nil => rfl
  | cons a t ih =>
    rw [List.dropWhile_cons]
    split
    · exact ih
    · rename_i hpa
      rw [List.dropWhile_cons, if_neg hpa]

theorem dropWhile_prefix_fix {p : Char → Bool} {l r : List Char}
    (hfix : List.dropWhile p l = l) (hpre : r <+: l) :
    List.dropWhile p r = r := by
  rcases hpre with ⟨s, rfl⟩
  cases r with
  | nil => rfl
  | cons a t =>
    have hpa : p a = false := by
      cases hpa : p a
      · rfl
      · exfalso
        rw [List.cons_append, List.dropWhile_cons, if_pos hpa] at hfix
        have hlen := congrArg List.length hfix
        have hle := (List.dropWhile_sublist (l := t ++ s) p).length_le
        simp only [List.length_cons] at hlen
        omega
    rw [List.dropWhile_cons, if_neg (by simp [hpa])]

theorem jsTrim_idem (l : List Char) : jsTrim (jsTrim l) = jsTrim l := by
  have hfa := dropWhile_idem (p := isJsSpace) (l := l)
  have hpre :
      (List.dropWhile isJsSpace (List.dropWhile isJsSpace l).reverse).reverse <+:
        List.dropWhile isJsSpace l := by
    have hsuf := List.dropWhile_suffix (l := (List.dropWhile isJsSpace l).reverse) isJsSpace
    have h2 := List.reverse_prefix.mpr hsuf
    rwa [List.reverse_reverse] at h2
  unfold jsTrim
  rw [dropWhile_prefix_fix hfa hpre, List.reverse_reverse, dropWhile_idem]

theorem jsTrim_subset {l : List Char} : jsTrim l ⊆ l := by
  intro c hc
  unfold jsTrim at hc
  rw [List.mem_reverse] at hc
  have h2 := (List.dropWhile_sublist isJsSpace).subset hc
  rw [List.mem_reverse] at h2
  exact (List.dropWhile_sublist isJsSpace).subset h2

theorem jsTrim_all_space {l : List Char} (h : ∀ c ∈ l, isJsSpace c = true) :
    jsTrim l = [] := by
  unfold jsTrim
  rw [List.dropWhile_eq_nil_iff.mpr (fun x hx => h x hx)]
  rfl

theorem jsTrim_nil_all_space {l : List Char} (h : jsTrim l = []) :
    ∀ c ∈ l, isJsSpace c = true := by
  intro c hc
  unfold jsTrim at h
  rw [List.reverse_eq_nil_iff, List.dropWhile_eq_nil_iff] at h
  rcases List.mem_append.mp (by
      rw [List.takeWhile_append_dropWhile (p := isJsSpace) (l := l)]
      exact hc) with hm | hm
  · exact List.mem_takeWhile_imp hm
  · exact h c (List.mem_reverse.mpr hm)

theorem normCR_ne_cr (c : Char) : normCR c ≠ '\r' := by
  unfold normCR
  split
  · decide
  · assumption

theorem normCR_space {c : Char} (h : isJsSpace c = true) :
    isJsSpace (normCR c) = true := by
  unfold normCR
  split
  · rfl
  · exact h

/-- Characters of the chunks produced by the splitter: they are
non-delimiters drawn from the input or the accumulator. -/
theorem splitTokensAux_chars :
    ∀ (cs cur : List Char), (∀ c ∈ cur, isDelim c = false) →
      ∀ l ∈ splitTokensAux cs cur, ∀ c ∈ l, isDelim c = false ∧ (c ∈ cs ∨ c ∈ cur) := by
  intro cs
  induction cs with
  | nil =>
    intro cur hcur l hl c hc
    unfold splitTokensAux at hl
    split at hl
    · cases hl
    · rcases List.mem_singleton.mp hl with rfl
      rw [List.mem_reverse] at hc
      exact ⟨hcur c hc, Or.inr hc⟩
  | cons c0 t ih =>
    intro cur hcur l hl c hc
    unfold splitTokensAux at hl
    by_cases hd : isDelim c0 = true
    · rw [if_pos hd] at hl
      by_cases hce : cur = []
      · rw [if_pos hce] at hl
        rcases ih [] (by simp) l hl c hc with ⟨h1, h2 | h2⟩
        · exact ⟨h1, Or.inl (List.mem_cons_of_mem c0 h2)⟩
        · cases h2
      · rw [if_neg hce] at hl
        rcases List.mem_cons.mp hl with rfl | hl
        · rw [List.mem_reverse] at hc
          exact ⟨hcur c hc, Or.inr hc⟩
        · rcases ih [] (by simp) l hl c hc with ⟨h1, h2 | h2⟩
          · exact ⟨h1, Or.inl (List.mem_cons_of_mem c0 h2)⟩
          · cases h2
    · rw [if_neg hd] at hl
      have hc0 : isDelim c0 = false := by
        cases hb : isDelim c0
        · rfl
        · exact absurd hb hd
      rcases ih (c0 :: cur) (by
          intro x hx
          rcases List.mem_cons.mp hx with rfl | hx
          · exact hc0
          · exact hcur x hx) l hl c hc with ⟨h1, h2 | h2⟩
      · exact ⟨h1, Or.inl (List.mem_cons_of_mem c0 h2)⟩
      · rcases List.mem_cons.mp h2 with rfl | h2
        · exact ⟨h1, Or.inl (List.mem_cons_self c t)⟩
        · exact ⟨h1, Or.inr h2⟩

/-- A whitespace-only input tokenizes to the empty sequence. -/
theorem tokenize_ws {raw : String} (h : jsTrim raw.data = []) :
    tokenize raw = [] := by
  have hall := jsTrim_nil_all_space h
  unfold tokenize
  rw [List.filter_eq_nil_iff]
  intro a ha
  rcases List.mem_map.mp ha with ⟨chunk, hchunk, rfl⟩
  have hsp : ∀ c ∈ chunk, isJsSpace c = true := by
    intro c hc
    rcases splitTokensAux_chars _ [] (by simp) chunk hchunk c hc with ⟨_, hm | hm⟩
    · rcases List.mem_map.mp hm with ⟨c0, hc0, rfl⟩
      exact normCR_space (hall c0 hc0)
    · cases hm
  rw [jsTrim_all_space hsp]
  simp

theorem mem_dedupAux (x : String) :
    ∀ (l seen : List String), x ∈ dedupAux seen l ↔ x ∈ l ∧ x ∉ seen := by
  intro l
  induction l with
  | nil => simp [dedupAux]
  | cons y ys ih =>
    intro seen
    unfold dedupAux
    by_cases hy : y ∈ seen
    · rw [if_pos hy, ih seen]
      constructor
      · rintro ⟨hx, hns⟩
        exact ⟨List.mem_cons_of_mem _ hx, hns⟩
      · rintro ⟨hx, hns⟩
        rcases List.mem_cons.mp hx with rfl | hx
        · exact absurd hy hns
        · exact ⟨hx, hns⟩
    · rw [if_neg hy]
      constructor
      · intro hx
        rcases List.mem_cons.mp hx with rfl | hx
        · exact ⟨List.mem_cons_self _ _, hy⟩
        · rcases (ih (y :: seen)).mp hx with ⟨hx2, hns⟩
          exact ⟨List.mem_cons_of_mem _ hx2,
            fun hs => hns (List.mem_cons_of_mem _ hs)⟩
      · rintro ⟨hx, hns⟩
        rcases List.mem_cons.mp hx with rfl | hx
        · exact List.mem_cons_self _ _
        · by_cases hxy : x = y
          · subst hxy
            exact List.mem_cons_self _ _
          · refine List.mem_cons_of_mem _ ((ih (y :: seen)).mpr ⟨hx, ?_⟩)
            intro hs
            rcases List.mem_cons.mp hs with h2 | h2
            · exact hxy h2
            · exact hns h2

theorem dedupAux_nodup (l : List String) :
    ∀ seen : List String, (dedupAux seen l).Nodup := by
  induction l with
  | nil =>
    intro seen
    exact List.nodup_nil
  | cons y ys ih =>
    intro seen
    unfold dedupAux
    by_cases hy : y ∈ seen
    · rw [if_pos hy]
      exact ih seen
    · rw [if_neg hy]
      refine List.nodup_cons.mpr ⟨?_, ih (y :: seen)⟩
      intro hmem
      exact ((mem_dedupAux y ys (y :: seen)).mp hmem).2 (List.mem_cons_self _ _)

theorem filter_not_mem_length (excl : List String) (l : List String) :
    (l.filter (fun e => e ∉ excl)).length =
      l.length - l.countP (fun e => e ∈ excl) := by
  induction l with
  | nil => rfl
  | cons x xs ih =>
    have hle := List.countP_le_length (p := fun e => decide (e ∈ excl)) (l := xs)
    rw [List.filter_cons, List.countP_cons]
    by_cases hx : x ∈ excl
    · rw [if_neg (by simp [hx]), if_pos (by simp [hx]), ih, List.length_cons]
      omega
    · rw [if_pos (by simp [hx]), if_neg (by simp [hx]), List.length_cons, ih,
        List.length_cons]
      omega

/-! ### Claim C1 -/

/-- C1 (counterexample): the claimed canonical-output invariant fails on
the code at explicit inputs.  The token `a b` canonicalizes (through the
fallback path) to `domain:a b`, whose hostname part contains a space, so
the output does not match the pattern `domain:[^/\s]+`; the token
`example.com.` canonicalizes to `domain:example.com.`, whose hostname
ends in a dot; the token `www.www.x` canonicalizes to `domain:www.x`,
whose hostname still has a leading `www.` because the source strips the
prefix only once. -/
theorem C1_counterexample :
    toDisavowDomain ("a b") = some ("domain:a b") ∧
    ' ' ∈ ("domain:a b").data.drop 7 ∧
    toDisavowDomain ("example.com.") = some ("domain:example.com.") ∧
    (("domain:example.com.").data.drop 7).getLast? = some '.' ∧
    toDisavowDomain ("www.www.x") = some ("domain:www.x") ∧
    ("www.").data.isPrefixOf (("domain:www.x").data.drop 7) = true := by
  refine ⟨?_, ?_, ?_, ?_, ?_, ?_⟩ <;> decide

/-- C1 (amended): for every token, the canonicalizer returns either
`none` or `domain:` followed by a non-empty hostname that contains no
slash, question mark or hash (hence no scheme, path, query or fragment)
and no ASCII uppercase letter.  The hostname can, however, contain
whitespace (fallback path), end in a dot, or retain a `www.` prefix
when the input host began `www.www.`. -/
theorem C1_amended {v d : String} (he : toDisavowDomain v = some d) :
    ∃ h : List Char, d = String.mk (("domain:").data ++ h) ∧ h ≠ [] ∧
      ∀ c ∈ h, c ≠ '/' ∧ c ≠ '?' ∧ c ≠ '#' ∧ isUpperAscii c = false := by
  rcases toDisavowDomain_shape he with ⟨h, e, ne, hc⟩
  exact ⟨h, e, ne, fun c hmem =>
    ⟨(hc c hmem).1.1, (hc c hmem).1.2.1, (hc c hmem).1.2.2, (hc c hmem).2⟩⟩

/-- Witness for C1 (amended) at the concrete token `Foo.com`. -/
theorem C1_amended_witness :
    ∃ h : List Char, ("domain:foo.com" : String) = String.mk (("domain:").data ++ h) ∧
      h ≠ [] ∧ ∀ c ∈ h, c ≠ '/' ∧ c ≠ '?' ∧ c ≠ '#' ∧ isUpperAscii c = false :=
  C1_amended (v := ("Foo.com")) (d := ("domain:foo.com")) (by decide)

theorem clean_not_delim {c : Char} (h : cleanHostChar c = true) :
    isDelim c = false := by
  cases hb : isDelim c
  · rfl
  · exfalso
    unfold isDelim at hb
    simp only [Bool.or_eq_true, decide_eq_true_eq] at hb
    repeat' rcases hb with hb | hb
    all_goals exact absurd h (by decide)

theorem splitTokensAux_nodelim {cs : List Char}
    (h : ∀ c ∈ cs, isDelim c = false) :
    ∀ cur : List Char, cur.reverse ++ cs ≠ [] →
      splitTokensAux cs cur = [cur.reverse ++ cs] := by
  induction cs with
  | nil =>
    intro cur hne
    unfold splitTokensAux
    rw [List.append_nil] at hne ⊢
    rw [if_neg (fun hc => hne (by rw [hc]; rfl))]
  | cons c t ih =>
    intro cur hne
    unfold splitTokensAux
    rw [h c (List.mem_cons_self c t)]
    rw [if_neg (by decide)]
    rw [ih (fun x hx => h x (List.mem_cons_of_mem c hx)) (c :: cur) (by simp)]
    simp [List.reverse_cons, List.append_assoc]

/-! ### Claim C5 -/

/-- C5 (counterexample): canonicalization is not idempotent.  The token
`www.www.x` canonicalizes to `domain:www.x` (only one `www.` is
stripped), and canonicalizing that output again yields `domain:x`. -/
theorem C5_counterexample :
    toDisavowDomain ("www.www.x") = some ("domain:www.x") ∧
    toDisavowDomain ("domain:www.x") = some ("domain:x") ∧
    some ("domain:x" : String) ≠ some ("domain:www.x" : String) := by
  refine ⟨?_, ?_, ?_⟩ <;> decide

/-- C5 (amended): canonicalization is idempotent on every output whose
hostname consists of lowercase ASCII letters, digits, hyphens, dots and
underscores, does not begin with `www.` and does not end in a numeric
label.  It can fail to be idempotent otherwise, e.g. when the hostname
retains a `www.` prefix. -/
theorem C5_amended {t d : String} (he : toDisavowDomain t = some d)
    (hclean : ∀ c ∈ d.data.drop 7, cleanHostChar c = true)
    (hwww : ¬ ("www.").data <+: d.data.drop 7)
    (hnum : endsInNumber (d.data.drop 7) = false) :
    toDisavowDomain d = some d := by
  rcases toDisavowDomain_shape he with ⟨h, rfl, hne2, _⟩
  have hdrop : (String.mk (("domain:").data ++ h)).data.drop 7 = h :=
    List.drop_left' (show (("domain:").data).length = 7 from rfl)
  rw [hdrop] at hclean hwww hnum
  refine toDisavow_tagged hne2 hclean ?_ hnum
  intro he2
  have hta : h.take 4 = ("www.").data := take_clean_eq_www hclean he2
  exact hwww ⟨h.drop 4, by rw [← hta]; exact List.take_append_drop 4 h⟩

/-- Witness for C5 (amended) at the canonical output of `x.com`. -/
theorem C5_amended_witness :
    toDisavowDomain ("domain:x.com") = some ("domain:x.com") :=
  C5_amended (t := ("x.com")) (d := ("domain:x.com"))
    (by decide) (by decide) (by decide) (by decide)

/-! ### Claim C10 -/

/-- C10 (counterexample): a dot-free, scheme-free, slash-free token is
not always accepted verbatim as its own hostname.  The token `a:1` is
parsed as host `a` with port `1`, so the port is stripped; and the
token `domain:` is rejected outright because nothing remains after the
tag is stripped. -/
theorem C10_counterexample :
    toDisavowDomain ("a:1") = some ("domain:a") ∧
    ("domain:a" : String) ≠ ("domain:a:1") ∧
    toDisavowDomain ("domain:") = none := by
  refine ⟨?_, ?_, ?_⟩ <;> decide

/-- C10 (amended): the canonicalizer performs no domain-validity check:
every non-empty token of lowercase ASCII letters, digits, hyphens and
underscores with no dot — provided it is not in a numeric form that the
URL parser rewrites as an IPv4 address, and (forced by the
counterexample) contains no colon, at-sign, or other separator — is
accepted verbatim as its own hostname; the classifier rejects such a
token, yet the greenlist builder, which applies the canonicalizer
without the classifier, still turns it into an exclusion-set member. -/
theorem C10_amended {t : String} (hne : t.data ≠ [])
    (hclean : ∀ c ∈ t.data, cleanHostChar c = true)
    (hnd : ∀ c ∈ t.data, c ≠ '.')
    (hnum : endsInNumber t.data = false) :
    toDisavowDomain t = some (String.mk (("domain:").data ++ t.data)) ∧
    looksLikeUrl t = false ∧
    normalizeGreenEntries t = [String.mk (("domain:").data ++ t.data)] := by
  have hbare : toDisavowDomain t = some (String.mk (("domain:").data ++ t.data)) :=
    toDisavow_bare hne hclean (take_nodot_ne_www hnd) hnum
  have htrim : jsTrim t.data = t.data :=
    jsTrim_fix (fun c hc => clean_not_space (hclean c hc))
  have hlow : lowerStr t.data = t.data :=
    lowerStr_fix (fun c hc => clean_toLower (hclean c hc))
  have hp : ∀ p : List Char, ':' ∈ p ∨ '.' ∈ p → p.isPrefixOf t.data = false := by
    intro p hm
    cases hb : p.isPrefixOf t.data
    · rfl
    · exfalso
      have hsub := (List.isPrefixOf_iff_prefix.mp hb).subset
      rcases hm with hm | hm
      · exact absurd (hclean ':' (hsub hm)) (by decide)
      · exact hnd '.' (hsub hm) rfl
  have hlooks : looksLikeUrl t = false := by
    unfold looksLikeUrl
    dsimp only
    rw [htrim, hlow]
    rw [if_neg hne]
    rw [if_neg (show ¬ ((("domain:").data.isPrefixOf t.data) = true) from by
      rw [hp _ (Or.inl (by decide))]; decide)]
    rw [if_neg (show ¬ ((("http://").data.isPrefixOf t.data) = true) from by
      rw [hp _ (Or.inl (by decide))]; decide)]
    rw [if_neg (show ¬ ((("https://").data.isPrefixOf t.data) = true) from by
      rw [hp _ (Or.inl (by decide))]; decide)]
    rw [if_neg (show ¬ ((("www.").data.isPrefixOf t.data) = true) from by
      rw [hp _ (Or.inr (by decide))]; decide)]
    cases hb : t.data.any (fun c => c = '.')
    · rfl
    · rcases List.any_eq_true.mp hb with ⟨x, hx, hfx⟩
      rw [decide_eq_true_eq] at hfx
      subst hfx
      exact absurd rfl (hnd '.' hx)
  refine ⟨hbare, hlooks, ?_⟩
  have htok : tokenize t = [t] := by
    unfold tokenize
    rw [map_fix (show ∀ c ∈ t.data, normCR c = c from fun c hc => by
      unfold normCR
      rw [if_neg (clean_ne (hclean c hc) '\r' (by decide))])]
    rw [splitTokensAux_nodelim (fun c hc => clean_not_delim (hclean c hc)) []
      (by simpa using hne)]
    simp only [List.reverse_nil, List.nil_append, List.map_cons, List.map_nil]
    rw [htrim]
    show List.filter _ [t] = [t]
    rw [List.filter_cons_of_pos]
    · rfl
    · simp only [decide_eq_true_eq]
      exact fun he => hne (congrArg String.data he)
  unfold normalizeGreenEntries
  rw [htok]
  rw [show List.filterMap toDisavowDomain [t] =
      [String.mk (("domain:").data ++ t.data)] from by
    rw [List.filterMap_cons, hbare]
    rfl]
  rfl

/-- Witness for C10 (amended) at the concrete token `hello`. -/
theorem C10_amended_witness :
    toDisavowDomain ("hello") = some ("domain:hello") ∧
    looksLikeUrl ("hello") = false ∧
    normalizeGreenEntries ("hello") = [("domain:hello" : String)] :=
  C10_amended (t := ("hello")) (by decide) (by decide) (by decide) (by decide)

/-! ### Claim C2 -/

/-- C2: Scenario A.  The three tokens of the input all canonicalize to
`domain:spammy.com`; with dedupe enabled the pipeline reports a total of
3 and a single filtered entry, for either classifier setting. -/
theorem C2_scenarioA :
    (runProcessing ("https://Spammy.com/offer\nspammy.com\nDOMAIN:Spammy.com")
      true true []).total = 3 ∧
    (runProcessing ("https://Spammy.com/offer\nspammy.com\nDOMAIN:Spammy.com")
      true true []).filtered = [("domain:spammy.com" : String)] ∧
    (runProcessing ("https://Spammy.com/offer\nspammy.com\nDOMAIN:Spammy.com")
      true false []).total = 3 ∧
    (runProcessing ("https://Spammy.com/offer\nspammy.com\nDOMAIN:Spammy.com")
      true false []).filtered = [("domain:spammy.com" : String)] := by
  refine ⟨?_, ?_, ?_, ?_⟩ <;> decide

/-! ### Claim C3 -/

/-- C3: with dedupe the filtered output has no repeated elements; without
dedupe the filtered output is exactly the survivor sequence minus the
exclusion hits, so its length is the survivor count minus the number of
exclusion hits. -/
theorem C3_dedupe :
    (∀ (raw : String) (skip : Bool) (excl : List String),
      ((runProcessing raw true skip excl).filtered).Nodup) ∧
    (∀ (raw : String) (skip : Bool) (excl : List String),
      (runProcessing raw false skip excl).filtered =
        ((parseDomains raw false skip).cleaned).filter (fun e => e ∉ excl) ∧
      ((runProcessing raw false skip excl).filtered).length =
        ((parseDomains raw false skip).cleaned).length -
          ((parseDomains raw false skip).cleaned).countP (fun e => e ∈ excl)) := by
  constructor
  · intro raw skip excl
    unfold runProcessing
    split
    · exact List.nodup_nil
    · refine List.Nodup.filter _ ?_
      show (parseDomains raw true skip).cleaned.Nodup
      unfold parseDomains
      exact dedupAux_nodup _ []
  · intro raw skip excl
    have hfe : (runProcessing raw false skip excl).filtered =
        ((parseDomains raw false skip).cleaned).filter (fun e => e ∉ excl) := by
      unfold runProcessing
      split
      · rename_i hws
        have htok := tokenize_ws hws
        show ([] : List String) = _
        unfold parseDomains
        rw [htok]
        rfl
      · rfl
    exact ⟨hfe, by rw [hfe, filter_not_mem_length]⟩

/-! ### Claim C4 -/

/-- C4: no member of the exclusion set ever appears in the filtered
output; the removed-by-exclusion counter is the length difference
between the cleaned and the filtered sequence; and Scenario D behaves
as specified. -/
theorem C4_exclusion :
    (∀ (raw : String) (dedupe skip : Bool) (excl : List String) (d : String),
      d ∈ excl → d ∉ (runProcessing raw dedupe skip excl).filtered) ∧
    (∀ (raw : String) (dedupe skip : Bool) (excl : List String),
      (runProcessing raw dedupe skip excl).greenRemoved =
        (runProcessing raw dedupe skip excl).cleaned.length -
          (runProcessing raw dedupe skip excl).filtered.length) ∧
    (runProcessing ("example.com\nother.com") true true
      [("domain:example.com" : String)]).filtered = [("domain:other.com" : String)] ∧
    (runProcessing ("example.com\nother.com") true true
      [("domain:example.com" : String)]).greenRemoved = 1 := by
  refine ⟨?_, ?_, ?_, ?_⟩
  · intro raw dedupe skip excl d hd hmem
    unfold runProcessing at hmem
    split at hmem
    · cases hmem
    · dsimp only at hmem
      rcases List.mem_filter.mp hmem with ⟨_, hp⟩
      rw [decide_eq_true_eq] at hp
      exact hp hd
  · intro raw dedupe skip excl
    unfold runProcessing
    split
    · rfl
    · rfl
  · decide
  · decide

/-- Witness for C4 at Scenario D: the excluded entry is absent from the
filtered output. -/
theorem C4_exclusion_witness :
    ("domain:example.com" : String) ∉
      (runProcessing ("example.com\nother.com") true true
        [("domain:example.com" : String)]).filtered :=
  C4_exclusion.1 ("example.com\nother.com") true true
    [("domain:example.com" : String)] ("domain:example.com") (by decide)

/-! ### Claim C6 -/

/-- C6: the canonicalizer is a total function signalling rejection as
`none`; when URL parsing fails it falls back to the prefix of the
tag-stripped token before the first slash, question mark or hash; and a
token that canonicalizes is never lost from a batch because of other
tokens, for either classifier setting. -/
theorem C6_total_fallback :
    (∀ v : String, jsTrim v.data ≠ [] → stripDomainTag (jsTrim v.data) ≠ [] →
      urlHostname (ensureProtocol (stripDomainTag (jsTrim v.data))) = none →
      toDisavowDomain v =
        (if lowerStr (stripWww (fallbackHost (stripDomainTag (jsTrim v.data)))) = []
          then none
          else some (String.mk (("domain:").data ++
            lowerStr (stripWww (fallbackHost (stripDomainTag (jsTrim v.data)))))))) ∧
    (∀ (raw : String) (dedupe skip : Bool) (t d : String),
      t ∈ tokenize raw → (skip = true → looksLikeUrl t = true) →
      toDisavowDomain t = some d →
      d ∈ (parseDomains raw dedupe skip).cleaned) := by
  constructor
  · intro v h1 h2 hu
    have hv : ¬ v = "" := by
      intro he
      subst he
      exact h1 rfl
    unfold toDisavowDomain
    rw [if_neg hv]
    dsimp only
    rw [if_neg h1, if_neg h2, hu, Option.getD_none]
  · intro raw dedupe skip t d htok hlook hcan
    have hproc : d ∈ (tokenize raw).filterMap (fun token =>
        if skip && ¬ looksLikeUrl token then none else toDisavowDomain token) := by
      refine List.mem_filterMap.mpr ⟨t, htok, ?_⟩
      cases hsk : skip
      · simpa using hcan
      · rw [hlook hsk]
        simpa using hcan
    unfold parseDomains
    dsimp only
    cases dedupe
    · simpa using hproc
    · show d ∈ dedupAux [] _
      exact (mem_dedupAux d _ []).mpr ⟨hproc, by simp⟩

/-- Witness for C6: the fallback clause at the token `a b` (whose URL
parse fails on the space), and the batch clause at a two-token input. -/
theorem C6_total_fallback_witness :
    toDisavowDomain ("a b") =
      (if lowerStr (stripWww (fallbackHost (stripDomainTag (jsTrim ("a b").data)))) = []
        then none
        else some (String.mk (("domain:").data ++
          lowerStr (stripWww (fallbackHost (stripDomainTag (jsTrim ("a b").data))))))) ∧
    ("domain:x.com" : String) ∈ (parseDomains ("x.com,???") true true).cleaned :=
  ⟨C6_total_fallback.1 ("a b") (by decide) (by decide) (by decide),
   C6_total_fallback.2 ("x.com,???") true true ("x.com") ("domain:x.com")
     (by decide) (fun _ => by decide) (by decide)⟩

/-! ### Claim C7 -/

/-- C7: the tokenizer normalizes carriage returns to newlines, splits on
runs of the delimiter class, trims every token, drops empty tokens,
keeps duplicates in first-occurrence order, and maps empty input to the
empty sequence; every produced token is non-empty, trim-fixed, and free
of delimiter and carriage-return characters. -/
theorem C7_tokenizer :
    tokenize ("") = [] ∧
    tokenize ("a\rb") = [("a" : String), ("b" : String)] ∧
    tokenize (" a ,,\t b \n\nc;a ") =
      [("a" : String), ("b" : String), ("c" : String), ("a" : String)] ∧
    ∀ (raw t : String), t ∈ tokenize raw →
      t ≠ "" ∧ String.mk (jsTrim t.data) = t ∧
      ∀ c ∈ t.data, isDelim c = false ∧ c ≠ '\r' := by
  refine ⟨by decide, by decide, by decide, ?_⟩
  intro raw t ht
  unfold tokenize at ht
  rcases List.mem_filter.mp ht with ⟨hmap, hne⟩
  rcases List.mem_map.mp hmap with ⟨chunk, hchunk, rfl⟩
  refine ⟨by simpa using hne, ?_, ?_⟩
  · show String.mk (jsTrim (jsTrim chunk)) = String.mk (jsTrim chunk)
    rw [jsTrim_idem]
  · intro c hc
    have hcc : c ∈ chunk := jsTrim_subset hc
    rcases splitTokensAux_chars _ [] (by simp) chunk hchunk c hcc with ⟨hnd, hm | hm⟩
    · rcases List.mem_map.mp hm with ⟨c0, _, rfl⟩
      exact ⟨hnd, normCR_ne_cr c0⟩
    · cases hm

/-- Witness for C7 at the input `x`. -/
theorem C7_tokenizer_witness :
    ("x" : String) ≠ "" ∧
    String.mk (jsTrim ("x" : String).data) = ("x" : String) ∧
    ∀ c ∈ ("x" : String).data, isDelim c = false ∧ c ≠ '\r' :=
  C7_tokenizer.2.2.2 ("x") ("x") (by decide)

/-! ### Claim C8 -/

/-- The classifier policy as the spec words it: after trimming and
lowercasing, a token looks like a URL exactly when it starts with
`domain:`, `http://`, `https://` or `www.`, or contains a dot; the
empty string does not. -/
def looksLikeUrlSpec (value : String) : Prop :=
  lowerStr (jsTrim value.data) ≠ [] ∧
  (("domain:").data.isPrefixOf (lowerStr (jsTrim value.data)) = true ∨
   ("http://").data.isPrefixOf (lowerStr (jsTrim value.data)) = true ∨
   ("https://").data.isPrefixOf (lowerStr (jsTrim value.data)) = true ∨
   ("www.").data.isPrefixOf (lowerStr (jsTrim value.data)) = true ∨
   '.' ∈ lowerStr (jsTrim value.data))

/-- C8: the classifier implements exactly the spec policy; the empty
string is rejected; and Scenario B holds: with skipNonUrl enabled the
input `hello world` / `foo.bar` filters down to `domain:foo.bar`. -/
theorem C8_classifier :
    (∀ v : String, looksLikeUrl v = true ↔ looksLikeUrlSpec v) ∧
    looksLikeUrl ("") = false ∧
    (runProcessing ("hello world\nfoo.bar") true true []).filtered =
      [("domain:foo.bar" : String)] := by
  refine ⟨?_, by decide, by decide⟩
  intro v
  unfold looksLikeUrl looksLikeUrlSpec
  dsimp only
  by_cases h0 : lowerStr (jsTrim v.data) = []
  · rw [if_pos h0]
    simp [h0]
  · rw [if_neg h0]
    by_cases h1 : ("domain:").data.isPrefixOf (lowerStr (jsTrim v.data)) = true
    · rw [if_pos h1]
      simp [h0, h1]
    · rw [if_neg h1]
      by_cases h2 : ("http://").data.isPrefixOf (lowerStr (jsTrim v.data)) = true
      · rw [if_pos h2]
        simp [h0, h2]
      · rw [if_neg h2]
        by_cases h3 : ("https://").data.isPrefixOf (lowerStr (jsTrim v.data)) = true
        · rw [if_pos h3]
          simp [h0, h3]
        · rw [if_neg h3]
          by_cases h4 : ("www.").data.isPrefixOf (lowerStr (jsTrim v.data)) = true
          · rw [if_pos h4]
            simp [h0, h4]
          · rw [if_neg h4]
            simp [h0, h1, h2, h3, h4, List.any_eq_true]

/-! ### Claim C9 -/

/-- C9: an empty or whitespace-only input short-circuits to the zero
result regardless of flags and exclusion set. -/
theorem C9_short_circuit (source : String) (dedupe skip : Bool)
    (excl : List String) (h : jsTrim source.data = []) :
    runProcessing source dedupe skip excl = ⟨0, [], [], 0⟩ := by
  unfold runProcessing
  rw [if_pos h]

/-- Witness for C9 at a whitespace-only input. -/
theorem C9_short_circuit_witness :
    runProcessing ("  \n\t ") true true [("domain:x" : String)] = ⟨0, [], [], 0⟩ :=
  C9_short_circuit ("  \n\t ") true true [("domain:x" : String)] (by decide)

end Disavow
